import Mathlib

/-!
Shallow embedding of `src/build_randomizer.py` (print-combinator).

Python dicts are modelled as association lists `List (String × α)` that keep
insertion order: writing an existing key updates it in place, writing a new
key appends it at the end, and lookup returns the first matching entry, just
as a Python `dict` behaves (dict keys are unique, so "first" is "the" entry).
Integer quantities (material cc, seconds, ids) are modelled as `Nat`; the one
signed subtraction in `filter_builds` is done in `Int`.
-/

namespace PrintCombinator

/-- Lookup in a Python-dict-like association list (`d[k]` / `d.get(k)`). -/
def dget {α : Type} (d : List (String × α)) (k : String) : Option α :=
  (d.find? (fun kv => decide (kv.1 = k))).map (fun kv => kv.2)

/-- `d.get(k, v₀)` on a Python-dict-like association list. -/
def dgetD {α : Type} (d : List (String × α)) (k : String) (v₀ : α) : α :=
  (dget d k).getD v₀

/-- `d[k] = v` on a Python-dict-like association list: update in place when the
key exists, append otherwise (Python dicts keep insertion order). -/
def dset {α : Type} (d : List (String × α)) (k : String) (v : α) :
    List (String × α) :=
  if d.any (fun kv => decide (kv.1 = k)) then
    d.map (fun kv => if kv.1 = k then (k, v) else kv)
  else d ++ [(k, v)]

/-- The `Test` namedtuple of `src/matrix_generator.py` (called a "part"). -/
structure Part where
  name : String
  base_name : String
  cnd : String
  batch : Nat
  machine : Nat
  sample : Nat
  print_time : Nat
  print_materials : List (String × Nat)
  print_max_samples : Nat
deriving DecidableEq, Repr, Inhabited

/-- The state of a `Build` object (`src/build_randomizer.py`, lines 13-33).
Fields named `_x` are the private attributes of the Python class; `_parts` is
the dict mapping `base_name` to a dict mapping `cnd` to the stored part. -/
structure Build where
  name : String
  max_material : List (String × Nat)
  _parts : List (String × List (String × Part))
  _print_time : Nat
  _print_materials : List (String × Nat)
  _batch : Option Nat
  _machine : Option Nat
  _first_part : Bool
deriving DecidableEq, Repr

instance : Inhabited Build :=
  ⟨⟨"", [], [], 0, [], none, none, true⟩⟩

/-- `Build.__init__` (lines 16-32): `batch`/`machine` optionally preset, all
accumulators empty, `_first_part = True`. The Python default for
`max_material` is `{'CFA': 50, 'OFA': 800}`. -/
def mkBuild (name : String) (batch machine : Option Nat := none)
    (max_material : List (String × Nat) := [("CFA", 50), ("OFA", 800)]) :
    Build :=
  { name := name
    max_material := max_material
    _parts := []
    _print_time := 0
    _print_materials := []
    _batch := batch
    _machine := machine
    _first_part := true }

/-- The material accumulation of `add_part` lines 108-112: for each required
key add its quantity to the running usage dict (insert on `KeyError`). -/
def mergeMaterials (d req : List (String × Nat)) : List (String × Nat) :=
  req.foldl
    (fun (d : List (String × Nat)) (kv : String × Nat) =>
      dset d kv.1 (dgetD d kv.1 0 + kv.2)) d

/-- The four failure kinds `Build.add_part` can raise (`RuntimeError`s in the
source; the material error records the offending key from the message). -/
inductive AddErr where
  | batchMismatch
  | machineMismatch
  | duplicatePart
  | materialExceeded (key : String)
deriving DecidableEq, Repr

/-- `Build.add_part` (lines 59-115), returning the post-call object state
together with `some` error when the Python code raises (the Python object
keeps its mutations when an exception escapes, hence the paired state).
`b._batch.getD p.batch` is the value of `self._batch` after the
`if self._batch is None: self._batch = part.batch` adoption (lines 73-76);
`_first_part` forces `ignore_checks` on the first call (lines 77-79).
A part with `print_max_samples = 0` would make line 97 raise
`ZeroDivisionError` in Python; here `% 0` is Lean's total operation and all
theorems about grouping assume `0 < print_max_samples` (the parser default
is 1). -/
def Build.add_part (b : Build) (p : Part) (ic : Bool := false) :
    Build × Option AddErr :=
  let batch := b._batch.getD p.batch
  let machine := b._machine.getD p.machine
  let ic := b._first_part || ic
  let b := { b with _batch := some batch, _machine := some machine,
                    _first_part := false }
  if batch ≠ p.batch ∧ ic = false then (b, some .batchMismatch)
  else if machine ≠ p.machine ∧ ic = false then (b, some .machineMismatch)
  else
    -- lines 88-92: seed the internal part list with an empty group
    let seeded :=
      if (dget b._parts p.base_name).isSome then b._parts
      else b._parts ++ [(p.base_name, [])]
    let b := { b with _parts := seeded }
    let group := (dget seeded p.base_name).getD []
    if (dget group p.cnd).isSome ∧ ic = false then (b, some .duplicatePart)
    else if group.length % p.print_max_samples = 0 then
      -- lines 98-104: material check, raising at the first violating key
      match p.print_materials.find? (fun (kv : String × Nat) =>
          decide (dgetD b.max_material kv.1 0
            < dgetD b._print_materials kv.1 0 + kv.2) && !ic) with
      | some kv => (b, some (.materialExceeded kv.1))
      | none =>
        -- lines 107-112: charge print time and materials once per group
        let b := { b with
          _print_time := b._print_time + p.print_time
          _print_materials := mergeMaterials b._print_materials
            p.print_materials }
        ({ b with _parts := dset seeded p.base_name (dset group p.cnd p) },
         none)
    else
      ({ b with _parts := dset seeded p.base_name (dset group p.cnd p) },
       none)

/-- The `base_names` property (lines 117-124): base names with ≥ 1 specimen. -/
def Build.base_names (b : Build) : List String :=
  (b._parts.filter (fun g => decide (g.2.length ≠ 0))).map (fun g => g.1)

/-- The `parts` property (lines 136-143): flattened list of stored parts, in
group order then condition order. -/
def Build.parts (b : Build) : List Part :=
  (b._parts.map (fun g => g.2.map (fun e => e.2))).flatten

/-- Stable insertion into a list already sorted in descending key order: `x`
goes before the first element whose key is not strictly greater than `f x`,
so elements with equal keys keep their original relative order. -/
def insertDesc {α : Type} (f : α → Nat) (x : α) : List α → List α
  | [] => [x]
  | y :: ys => if f x < f y then y :: insertDesc f x ys else x :: y :: ys

/-- Stable descending sort by the key `f`.  A stable sort's output is uniquely
determined by the key order and the input order, so this is extensionally the
same reordering as Python's Timsort `sort(key=f, reverse=True)` /
`sorted(…, key=f, reverse=True)` (both stable, and `reverse=True` does not
reverse equal-key runs). -/
def sortDesc {α : Type} (f : α → Nat) (l : List α) : List α :=
  l.foldr (insertDesc f) []

/-- The `build_kwargs` dict a `BuildCollection` forwards to every `Build` it
constructs (line 166 and 282-285); the defaults are `Build.__init__`'s. -/
structure BuildKwargs where
  batch : Option Nat := none
  machine : Option Nat := none
  max_material : List (String × Nat) := [("CFA", 50), ("OFA", 800)]
deriving DecidableEq, Repr, Inhabited

/-- `Build('B-i', **build_kwargs)`. -/
def mkBuildKw (name : String) (kw : BuildKwargs) : Build :=
  mkBuild name kw.batch kw.machine kw.max_material

/-- `BuildCollection` state (lines 156-170). -/
structure BuildCollection where
  builds : List Build
  build_kwargs : BuildKwargs
  num_builds : Nat
deriving DecidableEq, Repr

/-- `BuildCollection.__init__` (lines 159-170). -/
def BuildCollection.init (num_builds : Nat := 1) (kw : BuildKwargs := {}) :
    BuildCollection :=
  { builds := (List.range num_builds).map
      (fun i => mkBuildKw ("B-" ++ toString i) kw)
    build_kwargs := kw
    num_builds := num_builds }

/-- `BuildCollection.spawn_build` (lines 280-288): append a fresh build named
with the next sequence number (the Python method returns `builds[-1]`). -/
def BuildCollection.spawn_build (c : BuildCollection) : BuildCollection :=
  { c with
    builds := c.builds ++ [mkBuildKw ("B-" ++ toString c.num_builds)
      c.build_kwargs]
    num_builds := c.num_builds + 1 }

/-- Step 1 of `filter_builds` (lines 262-264): batch equal or unset. -/
def batchPass (bt : Nat) (b : Build) : Bool :=
  decide (b._batch = some bt) || decide (b._batch = none)

/-- Step 2 of `filter_builds` (lines 265-267): machine equal or unset. -/
def machinePass (m : Nat) (b : Build) : Bool :=
  decide (b._machine = some m) || decide (b._machine = none)

/-- Step 3 of `filter_builds` (lines 268-270): Build already holds ≥ 1 part
with this base name. -/
def basePass (bn : String) (b : Build) : Bool :=
  b.base_names.contains bn

/-- Step 4 of `filter_builds` (lines 271-276): every requested material still
fits in the remaining capacity.  Python refilters once per key; filtering by
the conjunction of the per-key tests yields the same list.  The subtraction
is a signed Python `int` subtraction, hence `Int`. -/
def matPass (materials : List (String × Nat)) (b : Build) : Bool :=
  materials.all (fun kv =>
    decide ((kv.2 : Int) ≤ ((dgetD b.max_material kv.1 0 : Nat) : Int)
      - ((dgetD b._print_materials kv.1 0 : Nat) : Int)))

/-- `BuildCollection.filter_builds` (lines 249-278).  When `batch` is `None`
the Python local `builds` is never assigned, and every execution path then
raises `UnboundLocalError` (the base-name/material comprehensions read it, and
so does the final `return builds`); that crash is modelled as `none`. -/
def BuildCollection.filter_builds (c : BuildCollection)
    (batch : Option Nat := none) (machine : Option Nat := none)
    (materials : List (String × Nat) := [])
    (base_name : Option String := none) : Option (List Build) :=
  match batch with
  | none => none
  | some bt =>
    let builds := c.builds.filter (batchPass bt)
    let builds := match machine with
      | none => builds
      | some m => builds.filter (machinePass m)
    match base_name with
    | some bn => some (builds.filter (basePass bn))
    | none => some (builds.filter (matPass materials))

/-- Candidate pools inside `assign_part` are Python lists of references into
`self.builds`; we model a pool as the list of positions of the builds that
pass the given filter, in build order (exactly the sublist `filter_builds`
returns, since two distinct `Build` objects are never `==` in Python). -/
def eligIdx (builds : List Build) (pred : Build → Bool) : List Nat :=
  (List.range builds.length).filter (fun i =>
    match builds[i]? with
    | some b => pred b
    | none => false)

/-- The retry loop of `assign_part` (lines 191-212): pick a random candidate
from the current pool; when the pool is empty fall back to the lazy pool once,
then spawn a fresh build (whose first addition is internally forced and hence
accepted); a candidate whose `add_part` raises is removed from the current
pool (`list.remove`) and keeps the mutations the failed call made.  `pick n`
drives the `n`-th call to `random.choice`: the chosen element is position
`pick n % pool.length` of the pool. -/
def assignLoop (c : BuildCollection) (p : Part) (pick : Nat → Nat)
    (elig : List Nat) (lazyElig : Option (List Nat)) (step : Nat) :
    BuildCollection :=
  match elig, lazyElig with
  | [], some l =>
    -- lines 197-201: move off of the strict list
    assignLoop c p pick l none step
  | [], none =>
    -- lines 202-204 + 280-288: spawn a new build; its first add always lands
    { c with
      builds := c.builds ++
        [((mkBuildKw ("B-" ++ toString c.num_builds) c.build_kwargs).add_part
          p).1]
      num_builds := c.num_builds + 1 }
  | i :: rest, lz =>
    let es := i :: rest
    let j := es.getD (pick step % es.length) 0
    let b := c.builds.getD j default
    match b.add_part p with
    | (b', none) => { c with builds := c.builds.set j b' }
    | (b', some _) =>
      assignLoop { c with builds := c.builds.set j b' } p pick (es.erase j)
        lz (step + 1)
termination_by
  (match lazyElig with | some l => l.length + 1 | none => 0) + elig.length
decreasing_by
  · omega
  · have hk : pick step % (i :: rest).length < (i :: rest).length :=
      Nat.mod_lt _ (Nat.succ_pos _)
    have hj : (i :: rest).getD (pick step % (i :: rest).length) 0
        ∈ (i :: rest) := by
      rw [List.getD_eq_getElem _ _ hk]
      exact List.getElem_mem _
    have h2 := List.length_erase_of_mem hj
    simp only [List.length_cons] at *
    omega

/-- `BuildCollection.assign_part` (lines 172-212): the lazy pool filters on
batch, machine and materials, the strict pool on batch, machine and base
name; both are computed up front, then the retry loop runs. -/
def BuildCollection.assign_part (c : BuildCollection) (p : Part)
    (pick : Nat → Nat) : BuildCollection :=
  let lazyE := eligIdx c.builds (fun b =>
    batchPass p.batch b && machinePass p.machine b
      && matPass p.print_materials b)
  let strictE := eligIdx c.builds (fun b =>
    batchPass p.batch b && machinePass p.machine b && basePass p.base_name b)
  assignLoop c p pick strictE (some lazyE) 0

/-- Lines 223-227: the template's material keys ranked by descending capacity
(`sorted(items, key=value, reverse=True)` is stable on ties). -/
def rank_keys (mm : List (String × Nat)) : List String :=
  (sortDesc (fun (kv : String × Nat) => kv.2) mm).map (fun kv => kv.1)

/-- Lines 229-230: one stable descending `parts.sort` pass per ranked key. -/
def sort_parts (keys : List String) (ps : List Part) : List Part :=
  keys.foldl
    (fun (l : List Part) (k : String) =>
      sortDesc (fun q => dgetD q.print_materials k 0) l) ps

/-- Lines 232-233: assign the sorted parts one by one.  `pick j` is the
random stream consumed while assigning the `j`-th part. -/
def assignList (c : BuildCollection) (ps : List Part)
    (pick : Nat → Nat → Nat) (j : Nat) : BuildCollection :=
  match ps with
  | [] => c
  | p :: rest => assignList (c.assign_part p (pick j)) rest pick (j + 1)

/-- `BuildCollection.assign_parts` (lines 214-233).  `self.builds[0]` raises
`IndexError` on an empty collection, and the sort key `x.print_materials[key]`
raises `KeyError` when a part lacks a ranked material key; both crashes are
modelled as `none` (Python would abort mid-sort without assigning anything). -/
def BuildCollection.assign_parts (c : BuildCollection) (ps : List Part)
    (pick : Nat → Nat → Nat) : Option BuildCollection :=
  match c.builds with
  | [] => none
  | b0 :: _ =>
    let keys := rank_keys b0.max_material
    if keys.all (fun k => ps.all (fun q => (dget q.print_materials k).isSome))
    then some (assignList c (sort_parts keys ps) pick 0)
    else none

/-- All parts stored anywhere in the collection, in build order (a
specification-level observable used by the theorems below). -/
def BuildCollection.allParts (c : BuildCollection) : List Part :=
  (c.builds.map Build.parts).flatten

/-! ### Association-list (Python dict) lemmas -/

theorem dget_append {α : Type} (d e : List (String × α)) (k : String) :
    dget (d ++ e) k = (dget d k).or (dget e k) := by
  cases h : d.find? (fun kv => decide (kv.1 = k)) <;>
    simp [dget, List.find?_append, h]

theorem dget_single_self {α : Type} (k : String) (v : α) :
    dget [(k, v)] k = some v := by
  simp [dget, List.find?_cons]

theorem dget_single_ne {α : Type} {k k' : String} (h : k' ≠ k) (v : α) :
    dget [(k, v)] k' = none := by
  have hkk : k ≠ k' := Ne.symm h
  simp [dget, List.find?_cons, hkk]

theorem dget_none_iff_not_any {α : Type} (d : List (String × α)) (k : String) :
    dget d k = none ↔ d.any (fun kv => decide (kv.1 = k)) = false := by
  simp [dget, List.find?_eq_none]

theorem dget_seeded {α : Type} (d : List (String × α)) (bn : String) (v₀ : α) :
    dget (if (dget d bn).isSome then d else d ++ [(bn, v₀)]) bn
      = some ((dget d bn).getD v₀) := by
  cases h : dget d bn with
  | some g => simp [h]
  | none => simp [h, dget_append, dget_single_self]

theorem dget_dset_self {α : Type} (d : List (String × α)) (k : String) (v : α) :
    dget (dset d k v) k = some v := by
  unfold dset
  split_ifs with h
  · rw [dget, List.find?_map]
    have hpg : ((fun kv => decide (kv.1 = k)) ∘
        (fun kv => if kv.1 = k then (k, v) else kv))
        = fun (kv : String × α) => decide (kv.1 = k) := by
      funext kv; by_cases hk : kv.1 = k <;> simp [hk]
    rw [hpg]
    simp only [List.any_eq_true, decide_eq_true_eq] at h
    obtain ⟨kv₀, hmem, hk⟩ := h
    have hs : (d.find? fun kv => decide (kv.1 = k)).isSome :=
      List.find?_isSome.mpr ⟨kv₀, hmem, by simp [hk]⟩
    obtain ⟨kv₁, hf⟩ := Option.isSome_iff_exists.mp hs
    have hk1 : kv₁.1 = k := by simpa using List.find?_some hf
    rw [hf]
    simp [hk1]
  · rw [dget, List.find?_append]
    have hnone : d.find? (fun kv => decide (kv.1 = k)) = none := by
      rw [List.find?_eq_none]
      intro x hx hpx
      simp only [List.any_eq_true] at h
      exact h ⟨x, hx, hpx⟩
    simp [hnone, List.find?_cons]

theorem dget_dset_ne {α : Type} {k k' : String} (d : List (String × α))
    (hne : k' ≠ k) (v : α) : dget (dset d k v) k' = dget d k' := by
  unfold dset
  split_ifs with h
  · rw [dget, List.find?_map]
    have hpg : ((fun kv => decide (kv.1 = k')) ∘
        (fun kv => if kv.1 = k then (k, v) else kv))
        = fun (kv : String × α) => decide (kv.1 = k') := by
      funext kv
      by_cases hk : kv.1 = k
      · simp [hk, Ne.symm hne]
      · simp [hk]
    rw [hpg]
    cases hf : d.find? (fun kv => decide (kv.1 = k')) with
    | none => simp [dget, hf]
    | some kv₀ =>
      have hk0 : kv₀.1 = k' := by simpa using List.find?_some hf
      simp [dget, hf, hk0, hne]
  · rw [dget, List.find?_append]
    rw [dget]
    have hkk : k ≠ k' := Ne.symm hne
    cases hf : d.find? (fun kv => decide (kv.1 = k')) with
    | none => simp [hf, List.find?_cons, hkk]
    | some kv₀ => simp [hf]

theorem mem_dset {α : Type} {d : List (String × α)} {k : String} {v : α}
    {e : String × α} (h : e ∈ dset d k v) :
    e = (k, v) ∨ (e ∈ d ∧ e.1 ≠ k) := by
  unfold dset at h
  split_ifs at h with hany
  · obtain ⟨kv, hmem, heq⟩ := List.mem_map.mp h
    by_cases hk : kv.1 = k
    · left; rw [← heq]; simp [hk]
    · right
      rw [if_neg hk] at heq
      exact ⟨heq ▸ hmem, heq ▸ hk⟩
  · rcases List.mem_append.mp h with h1 | h1
    · right
      refine ⟨h1, fun hk => ?_⟩
      simp only [List.any_eq_true, decide_eq_true_eq] at hany
      exact hany ⟨e, h1, hk⟩
    · left; simpa using h1

theorem keys_dset {α : Type} (d : List (String × α)) (k : String) (v : α) :
    (dset d k v).map Prod.fst = d.map Prod.fst
      ∨ ((dset d k v).map Prod.fst = d.map Prod.fst ++ [k]
          ∧ k ∉ d.map Prod.fst) := by
  unfold dset
  split_ifs with h
  · left
    rw [List.map_map]
    apply List.map_congr_left
    intro kv _
    by_cases hk : kv.1 = k <;> simp [hk]
  · right
    constructor
    · simp
    · simp only [List.any_eq_true, decide_eq_true_eq] at h
      intro hmem
      obtain ⟨kv, hkv, hfst⟩ := List.mem_map.mp hmem
      exact h ⟨kv, hkv, hfst⟩

/-! ### `add_part` characterization -/

/-- The part dict after the seeding of lines 88-92. -/
def seedOf (b : Build) (p : Part) : List (String × List (String × Part)) :=
  if (dget b._parts p.base_name).isSome then b._parts
  else b._parts ++ [(p.base_name, [])]

/-- The group stored under `p.base_name` (empty when absent). -/
def groupOf (b : Build) (p : Part) : List (String × Part) :=
  (dget b._parts p.base_name).getD []

theorem dget_seedOf (b : Build) (p : Part) :
    dget (seedOf b p) p.base_name = some (groupOf b p) :=
  dget_seeded _ _ _

theorem parts_eq_of_parts_seeded {b b' : Build} (h : b'._parts = seedOf b p) :
    b'.parts = b.parts := by
  unfold Build.parts seedOf at *
  rw [h]
  split_ifs with hs
  · rfl
  · simp


theorem find?_of_false {α : Type} (l : List α) :
    l.find? (fun _ => false) = none := by
  rw [List.find?_eq_none]; intro x _ hx; simp at hx

theorem add_part_forced_ok (b : Build) (p : Part) {ic : Bool}
    (hic : (b._first_part || ic) = true) : (b.add_part p ic).2 = none := by
  simp only [Build.add_part, hic]
  simp only [find?_of_false, Bool.not_true, Bool.and_false]
  simp
  split <;> split <;> rfl

theorem add_part_fail_state {b b' : Build} {p : Part} {ic : Bool} {e : AddErr}
    (h : b.add_part p ic = (b', some e)) :
    b._first_part = false ∧ ic = false ∧
    b'._batch = some (b._batch.getD p.batch) ∧
    b'._machine = some (b._machine.getD p.machine) ∧
    b'._first_part = false ∧
    b'._print_time = b._print_time ∧
    b'._print_materials = b._print_materials ∧
    b'.max_material = b.max_material ∧
    b'.name = b.name ∧
    b'.parts = b.parts ∧
    (b'._parts = b._parts ∨ b'._parts = seedOf b p) := by
  have hic : (b._first_part || ic) = false := by
    cases hor : (b._first_part || ic) with
    | false => rfl
    | true =>
      have h2 := add_part_forced_ok b p hor
      rw [h] at h2
      simp at h2
  obtain ⟨hf, hic'⟩ := Bool.or_eq_false_iff.mp hic
  refine ⟨hf, hic', ?_⟩
  simp only [Build.add_part, hic, Bool.not_false, Bool.and_true] at h
  simp only [eq_self_iff_true, and_true] at h
  split_ifs at h with hc1 hc2 hseed hdup hmod hdup2 hmod2
  all_goals try (revert h; split)
  all_goals try intro h
  all_goals rw [Prod.mk.injEq] at h
  all_goals obtain ⟨hb', he⟩ := h
  all_goals first
    | (exfalso; exact Option.noConfusion he)
    | (subst hb'
       refine ⟨rfl, rfl, rfl, rfl, rfl, rfl, rfl, ?_, ?_⟩ <;>
         first
           | exact Or.inl rfl
           | rfl
           | (simp [Build.parts]; done)
           | (right; simp [seedOf, *]))

theorem seedOf_eq (b : Build) (p : Part) :
    (if (dget b._parts p.base_name).isSome then b._parts
     else b._parts ++ [(p.base_name, [])]) = seedOf b p := rfl

theorem add_part_success_state {b b' : Build} {p : Part} {ic : Bool}
    (h : b.add_part p ic = (b', none)) :
    b'._batch = some (b._batch.getD p.batch) ∧
    b'._machine = some (b._machine.getD p.machine) ∧
    b'._first_part = false ∧
    b'.max_material = b.max_material ∧
    b'.name = b.name ∧
    b'._parts = dset (seedOf b p) p.base_name (dset (groupOf b p) p.cnd p) ∧
    ((b._first_part || ic) = false → dget (groupOf b p) p.cnd = none) ∧
    ((groupOf b p).length % p.print_max_samples = 0 →
      b'._print_time = b._print_time + p.print_time ∧
      b'._print_materials
        = mergeMaterials b._print_materials p.print_materials ∧
      ((b._first_part || ic) = false →
        ∀ kv ∈ p.print_materials,
          dgetD b._print_materials kv.1 0 + kv.2
            ≤ dgetD b.max_material kv.1 0)) ∧
    ((groupOf b p).length % p.print_max_samples ≠ 0 →
      b'._print_time = b._print_time ∧
      b'._print_materials = b._print_materials) := by
  simp only [Build.add_part] at h
  rw [seedOf_eq, dget_seedOf] at h
  simp only [Option.getD_some] at h
  split_ifs at h with hc1 hc2 hdup hmod
  · exact absurd (Prod.mk.injEq .. ▸ h).2 (by simp)
  · exact absurd (Prod.mk.injEq .. ▸ h).2 (by simp)
  · exact absurd (Prod.mk.injEq .. ▸ h).2 (by simp)
  · -- starts a new group
    revert h
    split
    · intro h
      exact absurd (Prod.mk.injEq .. ▸ h).2 (by simp)
    · rename_i heq
      intro h
      obtain ⟨hb', he⟩ := Prod.mk.injEq .. ▸ h
      subst hb'
      refine ⟨rfl, rfl, rfl, rfl, rfl, rfl, ?_, ?_, ?_⟩
      · intro hic
        cases o : dget (groupOf b p) p.cnd with
        | none => rfl
        | some q => exact absurd ⟨by simp [o], hic⟩ hdup
      · intro _
        refine ⟨rfl, rfl, ?_⟩
        intro hic kv hkv
        have hnot := List.find?_eq_none.mp heq kv hkv
        rw [hic] at hnot
        simp only [Bool.not_false, Bool.and_true, decide_eq_true_eq] at hnot
        omega
      · intro hm
        exact absurd hmod hm
  · -- shares an existing group
    obtain ⟨hb', he⟩ := Prod.mk.injEq .. ▸ h
    subst hb'
    refine ⟨rfl, rfl, rfl, rfl, rfl, rfl, ?_, ?_, ?_⟩
    · intro hic
      cases o : dget (groupOf b p) p.cnd with
      | none => rfl
      | some q => exact absurd ⟨by simp [o], hic⟩ hdup
    · intro hm
      exact absurd hm hmod
    · intro _
      exact ⟨rfl, rfl⟩

/-! ### Concrete data for witnesses and counterexamples -/

/-- A small concrete part (CFA 10 cc, one sample per print group). -/
def wPartA : Part :=
  ⟨"T-c1-B0-M0-S0", "T", "c1", 0, 0, 0, 300, [("CFA", 10)], 1⟩

/-- Same `(base_name, cnd)` as `wPartA`, different sample. -/
def wPartDup : Part := { wPartA with name := "T-c1-B0-M0-S1", sample := 1 }

/-- Same base name as `wPartA`, different condition, CFA 45 cc. -/
def wPartC : Part :=
  { wPartA with
    name := "T-c2-B0-M0-S0"
    cnd := "c2"
    print_materials := [("CFA", 45)] }

/-- A part on batch 1 / machine 1. -/
def wPartB1M1 : Part :=
  { wPartA with
    name := "U-c1-B1-M1-S0"
    base_name := "U"
    batch := 1
    machine := 1 }

/-- A default build that has accepted `wPartA`. -/
def wBuildA : Build := ((mkBuild "B-0").add_part wPartA).1

/-- Claim C2: whenever `add_part` fails (any of the four error kinds), the
Build's batch, machine, stored parts, accumulated print time and accumulated
materials are exactly as before the call, for any build whose ids are set
once its first part has been received (true of every build the program
constructs, since ids are adopted on the first call). -/
theorem c2_add_part_failure_unchanged
    {b b' : Build} {p : Part} {ic : Bool} {e : AddErr}
    (hids : b._first_part = false → b._batch.isSome ∧ b._machine.isSome)
    (h : b.add_part p ic = (b', some e)) :
    b'._batch = b._batch ∧ b'._machine = b._machine ∧
    b'.parts = b.parts ∧ b'._print_time = b._print_time ∧
    b'._print_materials = b._print_materials := by
  obtain ⟨hf, _, hbb, hbm, _, ht, hmats, _, _, hp, _⟩ := add_part_fail_state h
  obtain ⟨hb, hmch⟩ := hids hf
  obtain ⟨x, hx⟩ := Option.isSome_iff_exists.mp hb
  obtain ⟨y, hy⟩ := Option.isSome_iff_exists.mp hmch
  rw [hx] at hbb
  rw [hy] at hbm
  exact ⟨by simp [hbb, hx], by simp [hbm, hy], hp, ht, hmats⟩

/-- Witness for C2 at a concrete input: a duplicate-part failure. -/
theorem c2_witness :
    ((wBuildA.add_part wPartDup).1._batch = wBuildA._batch ∧
     (wBuildA.add_part wPartDup).1._machine = wBuildA._machine ∧
     (wBuildA.add_part wPartDup).1.parts = wBuildA.parts ∧
     (wBuildA.add_part wPartDup).1._print_time = wBuildA._print_time ∧
     (wBuildA.add_part wPartDup).1._print_materials
       = wBuildA._print_materials) := by
  have h : wBuildA.add_part wPartDup
      = ((wBuildA.add_part wPartDup).1, some AddErr.duplicatePart) := by
    decide
  exact c2_add_part_failure_unchanged (by decide) h

/-- Claim C4 counterexample: (i) a Build constructed with a preset (non-null)
batch 0 / machine 0 accepts a part with batch 1 / machine 1 without any error
on a non-forced call, because the very first addition is internally forced —
the claim as stated says it must fail with `BatchMismatch`; (ii) after the
first part, a part whose machine differs fails with `BatchMismatch` (not
`MachineMismatch`) whenever its batch differs as well, because the batch
check runs first. -/
theorem c4_counterexample :
    (((mkBuild "B-0" (some 0) (some 0)).add_part wPartB1M1).2 = none
      ∧ wPartB1M1.batch ≠ 0) ∧
    ((wBuildA.add_part wPartB1M1).2 = some AddErr.batchMismatch
      ∧ wPartB1M1.machine ≠ 0 ∧ wBuildA._machine = some 0) := by
  decide

/-- Claim C4 (amended): once non-null, `batch` and `machine` never change
under any `add_part` call, forced or not; and once a Build has received its
first part, a non-forced `add_part` with a different batch fails with
`BatchMismatch`, and one with a matching batch but a different machine fails
with `MachineMismatch`. -/
theorem c4_ids_immutable_and_mismatch_fail :
    (∀ (b : Build) (p : Part) (ic : Bool) (x : Nat), b._batch = some x →
        ((b.add_part p ic).1)._batch = some x) ∧
    (∀ (b : Build) (p : Part) (ic : Bool) (y : Nat), b._machine = some y →
        ((b.add_part p ic).1)._machine = some y) ∧
    (∀ (b : Build) (p : Part) (x : Nat), b._first_part = false →
        b._batch = some x → x ≠ p.batch →
        (b.add_part p).2 = some AddErr.batchMismatch) ∧
    (∀ (b : Build) (p : Part) (y : Nat), b._first_part = false →
        b._batch = some p.batch → b._machine = some y → y ≠ p.machine →
        (b.add_part p).2 = some AddErr.machineMismatch) := by
  refine ⟨?_, ?_, ?_, ?_⟩
  · intro b p ic x hx
    cases hr : b.add_part p ic with
    | mk b' o =>
      cases o with
      | none =>
        obtain ⟨hbb, -⟩ := add_part_success_state hr
        simp [hbb, hx]
      | some e =>
        obtain ⟨-, -, hbb, -⟩ := add_part_fail_state hr
        simp [hbb, hx]
  · intro b p ic y hy
    cases hr : b.add_part p ic with
    | mk b' o =>
      cases o with
      | none =>
        obtain ⟨-, hbm, -⟩ := add_part_success_state hr
        simp [hbm, hy]
      | some e =>
        obtain ⟨-, -, -, hbm, -⟩ := add_part_fail_state hr
        simp [hbm, hy]
  · intro b p x hf hx hne
    simp [Build.add_part, hf, hx, hne]
  · intro b p y hf hx hy hne
    simp [Build.add_part, hf, hx, hy, hne]

/-- Witness for C4 at concrete inputs: preserved preset ids, a batch
mismatch and a machine mismatch. -/
theorem c4_witness :
    (((mkBuild "B-0" (some 3) none).add_part wPartA).1._batch = some 3 ∧
     ((mkBuild "B-0" none (some 4)).add_part wPartA).1._machine = some 4) ∧
    ((wBuildA.add_part { wPartA with cnd := "c9", batch := 7 }).2
        = some AddErr.batchMismatch ∧
     (wBuildA.add_part { wPartA with cnd := "c9", machine := 7 }).2
        = some AddErr.machineMismatch) := by
  refine ⟨⟨?_, ?_⟩, ?_, ?_⟩
  · exact c4_ids_immutable_and_mismatch_fail.1 _ _ _ _ (by decide)
  · exact c4_ids_immutable_and_mismatch_fail.2.1 _ _ _ _ (by decide)
  · exact c4_ids_immutable_and_mismatch_fail.2.2.1 _ _ 0 (by decide)
      (by decide) (by decide)
  · exact c4_ids_immutable_and_mismatch_fail.2.2.2 _ _ 0 (by decide)
      (by decide) (by decide) (by decide)

/-- Claim C9: for a Build past its first part (ids matching, condition not a
duplicate), a non-forced addition that starts a new print group and whose
part requires a positive quantity of a material absent from `max_material`
fails with `MaterialExceeded`: an unlisted material is capacity 0, not
unlimited. -/
theorem c9_unlisted_material_zero_capacity
    {b : Build} {p : Part} {m : String} {qty : Nat}
    (hf : b._first_part = false)
    (hb : b._batch = some p.batch) (hm : b._machine = some p.machine)
    (hdup : dget (groupOf b p) p.cnd = none)
    (hcount : (groupOf b p).length % p.print_max_samples = 0)
    (hmem : (m, qty) ∈ p.print_materials) (hqty : 0 < qty)
    (habs : dget b.max_material m = none) :
    ∃ key, (b.add_part p).2 = some (AddErr.materialExceeded key) := by
  simp only [Build.add_part, hf, hb, hm, Option.getD_some, Bool.false_or]
  rw [seedOf_eq, dget_seedOf]
  simp only [Option.getD_some, hdup, hcount, Option.isSome_none,
    Bool.false_eq_true, false_and, if_false, ne_eq, not_true_eq_false,
    false_and, if_true, if_pos]
  cases hfind : p.print_materials.find? (fun (kv : String × Nat) =>
      decide (dgetD b.max_material kv.1 0
        < dgetD b._print_materials kv.1 0 + kv.2) && !false) with
  | none =>
    exfalso
    have hnp := List.find?_eq_none.mp hfind (m, qty) hmem
    simp only [dgetD, habs, Option.getD_none, Bool.not_false, Bool.and_true,
      decide_eq_true_eq] at hnp
    omega
  | some kv =>
    simp [hfind]

/-- A part whose material "XYZ" is not listed in the default capacity map. -/
def wPartX : Part :=
  { wPartA with
    name := "T-c9-B0-M0-S0"
    cnd := "c9"
    print_materials := [("XYZ", 5)] }

/-- Witness for C9 at a concrete input. -/
theorem c9_witness :
    ∃ key, (wBuildA.add_part wPartX).2
      = some (AddErr.materialExceeded key) := by
  have hmem : ("XYZ", 5) ∈ wPartX.print_materials := by decide
  exact c9_unlisted_material_zero_capacity (by decide) (by decide) (by decide)
    (by decide) (by decide) hmem (by decide) (by decide)

/-- Claim C8 (code bug in the source): when `batch` is omitted the Python
function raises `UnboundLocalError` on every path — the local `builds` is
only ever initialised inside `if batch is not None:` — instead of filtering
by the remaining criteria as its optional-parameter signature promises. -/
theorem c8_filter_builds_crashes_without_batch
    (c : BuildCollection) (machine : Option Nat)
    (materials : List (String × Nat)) (base_name : Option String) :
    c.filter_builds none machine materials base_name = none := rfl

/-- Well-formedness of a Build's internal part dict: keys are unique at both
levels, every stored part is stored under its own `(base_name, cnd)` keys,
and a build still awaiting its first part stores nothing.  This is exactly
what Python dict semantics and `add_part`'s store step guarantee, and it
holds of every build the program constructs. -/
def Build.Inv (b : Build) : Prop :=
  (b._parts.map Prod.fst).Nodup ∧
  (∀ g ∈ b._parts, (g.2.map Prod.fst).Nodup) ∧
  (∀ g ∈ b._parts, ∀ e ∈ g.2, e.2.base_name = g.1 ∧ e.2.cnd = e.1) ∧
  (b._first_part = true → b._parts = [])

instance (b : Build) : Decidable b.Inv := by
  unfold Build.Inv
  infer_instance

/-- `base_names` membership is exactly "contains at least one part with that
base name", for well-formed builds. -/
theorem mem_base_names_iff {b : Build} (hw : b.Inv) (bn : String) :
    bn ∈ b.base_names ↔ ∃ q ∈ b.parts, q.base_name = bn := by
  obtain ⟨-, -, hag, -⟩ := hw
  constructor
  · intro h
    simp only [Build.base_names, List.mem_map, List.mem_filter,
      decide_eq_true_eq] at h
    obtain ⟨g, ⟨hg, hne⟩, hfst⟩ := h
    cases he : g.2 with
    | nil => simp [he] at hne
    | cons e es =>
      refine ⟨e.2, ?_, ?_⟩
      · simp only [Build.parts, List.mem_flatten, List.mem_map]
        exact ⟨g.2.map (fun x => x.2), ⟨g, hg, rfl⟩,
          by simp [he]⟩
      · rw [(hag g hg e (by simp [he])).1, hfst]
  · rintro ⟨q, hq, hbn⟩
    simp only [Build.parts, List.mem_flatten, List.mem_map] at hq
    obtain ⟨l, ⟨g, hg, rfl⟩, hql⟩ := hq
    obtain ⟨e, he, rfl⟩ := List.mem_map.mp hql
    simp only [Build.base_names, List.mem_map, List.mem_filter,
      decide_eq_true_eq]
    refine ⟨g, ⟨hg, ?_⟩, ?_⟩
    · intro hlen
      rw [List.length_eq_zero] at hlen
      simp [hlen] at he
    · rw [← (hag g hg e he).1, hbn]

/-- Claim C7: whenever `base_name` is given (and `batch` is given, which any
call must do to return at all, see C8), the material-capacity step of
`filter_builds` is skipped entirely: the result is independent of
`materials`, and keeps, among the builds surviving the batch and machine
steps, exactly the builds that already contain at least one part with that
base name (well-formedness makes `base_names` membership mean exactly
that). -/
theorem c7_base_name_ignores_materials
    (c : BuildCollection) (bt : Nat) (machine : Option Nat)
    (materials : List (String × Nat)) (bn : String) :
    (c.filter_builds (some bt) machine materials (some bn)
        = c.filter_builds (some bt) machine [] (some bn)) ∧
    (c.filter_builds (some bt) machine materials (some bn)
        = some ((match machine with
            | none => c.builds.filter (batchPass bt)
            | some m => (c.builds.filter (batchPass bt)).filter (machinePass m)
            ).filter (basePass bn))) ∧
    (∀ b : Build, b.Inv →
      (basePass bn b = true ↔ ∃ q ∈ b.parts, q.base_name = bn)) := by
  refine ⟨rfl, rfl, ?_⟩
  intro b hw
  rw [basePass, List.contains_iff_exists_mem_beq]
  constructor
  · rintro ⟨a, ha, hbeq⟩
    have hab : bn = a := by simpa using hbeq
    subst hab
    exact (mem_base_names_iff hw bn).mp ha
  · intro h
    exact ⟨bn, (mem_base_names_iff hw bn).mpr h, by simp⟩

theorem dget_mem {α : Type} {d : List (String × α)} {k : String} {v : α}
    (h : dget d k = some v) : (k, v) ∈ d := by
  unfold dget at h
  cases hf : d.find? (fun kv => decide (kv.1 = k)) with
  | none => rw [hf] at h; exact Option.noConfusion h
  | some kv =>
    rw [hf] at h
    have hmem := List.mem_of_find?_eq_some hf
    have hk : kv.1 = k := by simpa using List.find?_some hf
    have hv : kv.2 = v := by simpa using h
    have : (k, v) = kv := by
      cases kv
      simp only at hk hv
      rw [hk, hv]
    rw [this]
    exact hmem

theorem dget_none_keys {α : Type} {d : List (String × α)} {k : String}
    (h : dget d k = none) : k ∉ d.map Prod.fst := by
  rw [dget_none_iff_not_any] at h
  intro hmem
  obtain ⟨kv, hkv, hfst⟩ := List.mem_map.mp hmem
  rw [List.any_eq_false] at h
  exact absurd (by simpa using hfst) (by simpa using h kv hkv)

theorem any_of_dget_isSome {α : Type} {d : List (String × α)} {k : String}
    (h : (dget d k).isSome) : d.any (fun kv => decide (kv.1 = k)) = true := by
  cases ha : d.any (fun kv => decide (kv.1 = k)) with
  | true => rfl
  | false => rw [(dget_none_iff_not_any d k).mpr ha] at h; simp at h

theorem keys_dset_of_isSome {α : Type} {d : List (String × α)} {k : String}
    (v : α) (h : (dget d k).isSome) :
    (dset d k v).map Prod.fst = d.map Prod.fst := by
  unfold dset
  rw [if_pos (any_of_dget_isSome h), List.map_map]
  apply List.map_congr_left
  intro kv _
  by_cases hk : kv.1 = k <;> simp [hk]

theorem length_dset_of_isSome {α : Type} {d : List (String × α)} {k : String}
    (v : α) (h : (dget d k).isSome) : (dset d k v).length = d.length := by
  unfold dset
  rw [if_pos (any_of_dget_isSome h), List.length_map]

/-- The group looked up by `add_part` is either absent (empty) or one of the
stored groups. -/
theorem groupOf_cases (b : Build) (p : Part) :
    groupOf b p = [] ∨ (p.base_name, groupOf b p) ∈ b._parts := by
  unfold groupOf
  cases h : dget b._parts p.base_name with
  | none => left; rfl
  | some g => right; simpa using dget_mem h

theorem Inv_seedOf {b : Build} (p : Part) (hw : b.Inv) :
    ((seedOf b p).map Prod.fst).Nodup ∧
    (∀ g ∈ seedOf b p, (g.2.map Prod.fst).Nodup) ∧
    (∀ g ∈ seedOf b p, ∀ e ∈ g.2, e.2.base_name = g.1 ∧ e.2.cnd = e.1) := by
  obtain ⟨h1, h2, h3, -⟩ := hw
  unfold seedOf
  split_ifs with hs
  · exact ⟨h1, h2, h3⟩
  · have hnone : dget b._parts p.base_name = none := by
      cases ho : dget b._parts p.base_name
      · rfl
      · rw [ho] at hs; simp at hs
    refine ⟨?_, ?_, ?_⟩
    · rw [List.map_append, List.nodup_append]
      refine ⟨h1, by simp, ?_⟩
      intro a ha ha'
      simp only [List.map_cons, List.map_nil, List.mem_singleton] at ha'
      exact dget_none_keys hnone (ha' ▸ ha)
    · intro g hg
      rcases List.mem_append.mp hg with h | h
      · exact h2 g h
      · simp only [List.mem_singleton] at h
        simp [h]
    · intro g hg
      rcases List.mem_append.mp hg with h | h
      · exact h3 g h
      · simp only [List.mem_singleton] at h
        simp [h]

/-- `add_part` preserves the dict invariant (any flags, success or failure). -/
theorem Inv_add_part {b : Build} (p : Part) (ic : Bool) (hw : b.Inv) :
    ((b.add_part p ic).1).Inv := by
  obtain ⟨hs1, hs2, hs3⟩ := Inv_seedOf p hw
  cases hr : b.add_part p ic with
  | mk b' o =>
    cases o with
    | some e =>
      obtain ⟨-, -, -, -, hfp, -, -, -, -, -, hpp⟩ := add_part_fail_state hr
      obtain ⟨h1, h2, h3, -⟩ := hw
      rcases hpp with h | h
      · refine ⟨?_, ?_, ?_, by simp [hfp]⟩ <;> rw [h]
        · exact h1
        · exact h2
        · exact h3
      · refine ⟨?_, ?_, ?_, by simp [hfp]⟩ <;> rw [h]
        · exact hs1
        · exact hs2
        · exact hs3
    | none =>
      obtain ⟨-, -, hfp, -, -, hpp, -⟩ := add_part_success_state hr
      have hkeyGnodup : ((groupOf b p).map Prod.fst).Nodup := by
        rcases groupOf_cases b p with h | h
        · simp [h]
        · exact hw.2.1 _ h
      have hGag : ∀ e ∈ groupOf b p,
          e.2.base_name = p.base_name ∧ e.2.cnd = e.1 := by
        rcases groupOf_cases b p with h | h
        · simp [h]
        · exact hw.2.2.1 _ h
      refine ⟨?_, ?_, ?_, by simp [hfp]⟩
      · rw [hpp, keys_dset_of_isSome _ (by rw [dget_seedOf]; rfl)]
        exact hs1
      · intro g hg
        rw [hpp] at hg
        rcases mem_dset hg with h | ⟨h, -⟩
        · subst h
          simp only
          rcases keys_dset (groupOf b p) p.cnd p with hk | ⟨hk, hnk⟩
          · rw [hk]; exact hkeyGnodup
          · rw [hk, List.nodup_append]
            refine ⟨hkeyGnodup, by simp, ?_⟩
            intro a ha ha'
            simp only [List.mem_singleton] at ha'
            exact hnk (ha' ▸ ha)
        · exact hs2 g h
      · intro g hg
        rw [hpp] at hg
        rcases mem_dset hg with h | ⟨h, -⟩
        · subst h
          intro e he
          rcases mem_dset he with h' | ⟨h', hne⟩
          · subst h'
            exact ⟨rfl, rfl⟩
          · exact hGag e h'
        · exact hs3 g h

theorem pairs_fst_mem (P : List (String × List (String × Part)))
    (h3 : ∀ g ∈ P, ∀ e ∈ g.2, e.2.base_name = g.1 ∧ e.2.cnd = e.1) :
    ∀ x ∈ ((P.map (fun g => g.2.map (fun e => e.2))).flatten).map
      (fun q => (q.base_name, q.cnd)), x.1 ∈ P.map Prod.fst := by
  intro x hx
  simp only [List.mem_map, List.mem_flatten] at hx
  obtain ⟨q, ⟨l, ⟨g, hg, rfl⟩, hql⟩, rfl⟩ := hx
  obtain ⟨e, he, rfl⟩ := List.mem_map.mp hql
  simp only
  rw [(h3 g hg e he).1]
  exact List.mem_map.mpr ⟨g, hg, rfl⟩

theorem pairs_nodup_aux (P : List (String × List (String × Part)))
    (h1 : (P.map Prod.fst).Nodup)
    (h2 : ∀ g ∈ P, (g.2.map Prod.fst).Nodup)
    (h3 : ∀ g ∈ P, ∀ e ∈ g.2, e.2.base_name = g.1 ∧ e.2.cnd = e.1) :
    (((P.map (fun g => g.2.map (fun e => e.2))).flatten).map
      (fun q => (q.base_name, q.cnd))).Nodup := by
  induction P with
  | nil => simp
  | cons g P ih =>
    simp only [List.map_cons, List.flatten_cons, List.map_append]
    rw [List.nodup_append]
    refine ⟨?_, ?_, ?_⟩
    · have hrw : (g.2.map (fun e => e.2)).map (fun q => (q.base_name, q.cnd))
          = (g.2.map Prod.fst).map (fun k => (g.1, k)) := by
        rw [List.map_map, List.map_map]
        apply List.map_congr_left
        intro e he
        obtain ⟨hb, hc⟩ := h3 g (by simp) e he
        simp [Function.comp, hb, hc]
      rw [hrw]
      exact (h2 g (by simp)).map (fun a b hab => by simpa using hab)
    · exact ih (by simpa using h1.of_cons)
        (fun g' hg' => h2 g' (by simp [hg']))
        (fun g' hg' => h3 g' (by simp [hg']))
    · intro x hx hx'
      have hfst1 : x.1 ∈ ([g] : List _).map Prod.fst := by
        apply pairs_fst_mem [g] (fun g' hg' => by
          simp only [List.mem_singleton] at hg'
          exact hg' ▸ h3 g (by simp))
        simpa using hx
      have hfst2 : x.1 ∈ P.map Prod.fst :=
        pairs_fst_mem P (fun g' hg' => h3 g' (by simp [hg'])) x hx'
      simp only [List.map_cons, List.map_nil, List.mem_singleton] at hfst1
      rw [List.map_cons, List.nodup_cons] at h1
      exact h1.1 (hfst1 ▸ hfst2)

/-- Claim C10: each `(base_name, cnd)` pair maps to at most one stored part,
even under forced additions: the dict invariant is preserved by every
`add_part` call, the flattened part list never holds two parts with the same
`(base_name, cnd)`, and a forced add of an already-present `(base_name, cnd)`
replaces the stored part (the lookup now yields the new part and the group
size is unchanged). -/
theorem c10_base_cnd_unique_forced_replaces :
    (∀ (b : Build) (p : Part) (ic : Bool), b.Inv →
      ((b.add_part p ic).1).Inv) ∧
    (∀ b : Build, b.Inv →
      (b.parts.map (fun q => (q.base_name, q.cnd))).Nodup) ∧
    (∀ (b : Build) (p q : Part), b.Inv →
      dget (groupOf b p) p.cnd = some q →
      (b.add_part p true).2 = none ∧
      dget (groupOf ((b.add_part p true).1) p) p.cnd = some p ∧
      (groupOf ((b.add_part p true).1) p).length
        = (groupOf b p).length) := by
  refine ⟨fun b p ic hw => Inv_add_part p ic hw, ?_, ?_⟩
  · intro b hw
    exact pairs_nodup_aux b._parts hw.1 hw.2.1 hw.2.2.1
  · intro b p q hw hq
    have hok : (b.add_part p true).2 = none := add_part_forced_ok b p (by simp)
    cases hr : b.add_part p true with
    | mk b' o =>
      rw [hr] at hok
      simp only at hok
      subst hok
      obtain ⟨-, -, -, -, -, hpp, -⟩ := add_part_success_state hr
      have hgroup : groupOf b' p = dset (groupOf b p) p.cnd p := by
        unfold groupOf
        rw [hpp, dget_dset_self]
        rfl
      refine ⟨rfl, ?_, ?_⟩
      · show dget (groupOf b' p) p.cnd = some p
        rw [hgroup, dget_dset_self]
      · show (groupOf b' p).length = (groupOf b p).length
        rw [hgroup, length_dset_of_isSome _ (by rw [hq]; rfl)]

/-- Witness for C10 at a concrete input: forced re-add of an existing
`(base_name, cnd)` replaces the stored part. -/
theorem c10_witness :
    (((wBuildA.add_part wPartDup true).1).Inv) ∧
    ((wBuildA.parts.map (fun q => (q.base_name, q.cnd))).Nodup) ∧
    ((wBuildA.add_part wPartDup true).2 = none ∧
      dget (groupOf ((wBuildA.add_part wPartDup true).1) wPartDup)
        wPartDup.cnd = some wPartDup ∧
      (groupOf ((wBuildA.add_part wPartDup true).1) wPartDup).length
        = (groupOf wBuildA wPartDup).length) := by
  have hq : dget (groupOf wBuildA wPartDup) wPartDup.cnd = some wPartA := by
    decide
  exact ⟨c10_base_cnd_unique_forced_replaces.1 wBuildA wPartDup true
      (by decide),
    c10_base_cnd_unique_forced_replaces.2.1 wBuildA (by decide),
    c10_base_cnd_unique_forced_replaces.2.2 wBuildA wPartDup wPartA
      (by decide) hq⟩

/-! ### Sequential additions (used to state the grouping-accounting claim) -/

/-- A sequence of `add_part` calls with `ignore_checks` left at its default;
stops at the first failure, like an uncaught exception would. -/
def addChain (b : Build) : List Part → Build × Option AddErr
  | [] => (b, none)
  | p :: ps =>
    match b.add_part p with
    | (b', none) => addChain b' ps
    | (b', some e) => (b', some e)

/-- The parts that start a new print group when added at stored counts
`j, j+1, j+2, …` with grouping factor `k` (line 97's test). -/
def groupCharges (j k : Nat) : List Part → List Part
  | [] => []
  | p :: ps =>
    if j % k = 0 then p :: groupCharges (j + 1) k ps
    else groupCharges (j + 1) k ps

theorem dset_of_dget_none {α : Type} {d : List (String × α)} {k : String}
    (h : dget d k = none) (v : α) : dset d k v = d ++ [(k, v)] := by
  unfold dset
  rw [if_neg]
  rw [dget_none_iff_not_any] at h
  simp [h]

/-- A failing `add_part` reports `MaterialExceeded` only when the addition
would have started a new print group. -/
theorem material_error_divisible {b b' : Build} {p : Part} {ic : Bool}
    {key : String}
    (h : b.add_part p ic = (b', some (AddErr.materialExceeded key))) :
    (groupOf b p).length % p.print_max_samples = 0 := by
  simp only [Build.add_part] at h
  rw [seedOf_eq, dget_seedOf] at h
  simp only [Option.getD_some] at h
  split_ifs at h with hc1 hc2 hdup hmod
  · exact absurd (by simpa using (Prod.mk.injEq .. ▸ h).2) (by simp)
  · exact absurd (by simpa using (Prod.mk.injEq .. ▸ h).2) (by simp)
  · exact absurd (by simpa using (Prod.mk.injEq .. ▸ h).2) (by simp)
  · exact hmod
  · exact absurd (Prod.mk.injEq .. ▸ h).2 (by simp)

/-- Accounting along a chain of successful default additions of parts sharing
one base name and grouping factor: print time and materials are charged for
exactly the parts of `groupCharges`, and the group grows by one per part. -/
theorem addChain_charges {bn : String} {k : Nat} :
    ∀ (ps : List Part) (b b' : Build),
      (∀ p ∈ ps, p.base_name = bn ∧ p.print_max_samples = k) →
      (b._first_part = true → b._parts = []) →
      addChain b ps = (b', none) →
      (b'._print_time = b._print_time +
        ((groupCharges ((dget b._parts bn).getD []).length k ps).map
          Part.print_time).sum) ∧
      (b'._print_materials
        = (groupCharges ((dget b._parts bn).getD []).length k ps).foldl
            (fun d q => mergeMaterials d q.print_materials)
            b._print_materials) ∧
      (((dget b'._parts bn).getD []).length
        = ((dget b._parts bn).getD []).length + ps.length) ∧
      (b'._first_part = true → b'._parts = []) := by
  intro ps
  induction ps with
  | nil =>
    intro b b' _ hfl h
    simp only [addChain] at h
    obtain ⟨rfl, -⟩ := Prod.mk.injEq .. ▸ h
    exact ⟨by simp [groupCharges], by simp [groupCharges], by simp, hfl⟩
  | cons p rest ih =>
    intro b b' hall hfl h
    simp only [addChain] at h
    cases hr : b.add_part p with
    | mk b₁ o =>
      rw [hr] at h
      cases o with
      | some e => simp at h
      | none =>
        obtain ⟨hbn, hks⟩ := hall p (by simp)
        obtain ⟨-, -, hfp1, -, -, hpp, hdupnone, hcharge, hnocharge⟩ :=
          add_part_success_state hr
        have hcndnone : dget (groupOf b p) p.cnd = none := by
          cases hfpb : b._first_part with
          | true =>
            have := hfl hfpb
            unfold groupOf
            rw [this]
            rfl
          | false => exact hdupnone (by simp [hfpb])
        have hgrow : dget b₁._parts bn
            = some ((groupOf b p) ++ [(p.cnd, p)]) := by
          rw [hpp, hbn] at *
          rw [dget_dset_self, dset_of_dget_none hcndnone]
        have hglen : ((dget b₁._parts bn).getD []).length
            = ((dget b._parts bn).getD []).length + 1 := by
          rw [hgrow]
          simp [groupOf, hbn]
        obtain ⟨ht', hm', hlen', hfl'⟩ :=
          ih b₁ b' (fun q hq => hall q (by simp [hq]))
            (by simp [hfp1]) h
        rw [hglen] at ht' hm' hlen'
        set j := ((dget b._parts bn).getD []).length with hj
        have hjg : (groupOf b p).length = j := by
          simp [groupOf, hbn, hj]
        by_cases hjk : j % k = 0
        · have hch := hcharge (by rw [hjg, hks]; exact hjk)
          refine ⟨?_, ?_, by simp only [List.length_cons]; omega, hfl'⟩
          · rw [ht', hch.1]
            simp only [groupCharges, hjk, if_true, List.map_cons,
              List.sum_cons]
            omega
          · rw [hm', hch.2.1]
            simp only [groupCharges, hjk, if_true, List.foldl_cons]
        · have hnc := hnocharge (by rw [hjg, hks]; exact hjk)
          refine ⟨?_, ?_, by simp only [List.length_cons]; omega, hfl'⟩
          · rw [ht', hnc.1]
            simp only [groupCharges, hjk, if_false, ite_false]
          · rw [hm', hnc.2]
            simp only [groupCharges, hjk, if_false, ite_false]

theorem groupCharges_append_no {k : Nat} :
    ∀ (qs ps' : List Part) (j : Nat),
      (∀ i < qs.length, (j + i) % k ≠ 0) →
      groupCharges j k (qs ++ ps') = groupCharges (j + qs.length) k ps' := by
  intro qs
  induction qs with
  | nil =>
    intro ps' j _
    simp [groupCharges]
  | cons q qs ih =>
    intro ps' j hno
    have h0 : j % k ≠ 0 := by simpa using hno 0 (by simp)
    simp only [List.cons_append, groupCharges, h0, ite_false,
      List.append_eq]
    rw [ih ps' (j + 1) ?_]
    · congr 1
      simp only [List.length_cons]
      omega
    · intro i hi
      have hh := hno (i + 1) (by simp only [List.length_cons]; omega)
      have he : j + 1 + i = j + (i + 1) := by omega
      rw [he]
      exact hh

/-- Claim C5: (i) an addition that does not start a new print group (stored
count not divisible by `print_max_samples`) performs no material check and no
time/material accounting, whatever else it does; (ii) successfully adding
`2k` parts sharing one base name with `print_max_samples = k` to a Build with
no parts under that base name charges print time and materials exactly twice:
once for the part added at stored count `0` and once for the part added at
stored count `k`. -/
theorem c5_grouping_accounting :
    (∀ (b : Build) (p : Part) (ic : Bool),
      0 < p.print_max_samples →
      (groupOf b p).length % p.print_max_samples ≠ 0 →
      ((b.add_part p ic).1._print_time = b._print_time ∧
       (b.add_part p ic).1._print_materials = b._print_materials ∧
       ∀ key, (b.add_part p ic).2 ≠ some (AddErr.materialExceeded key))) ∧
    (∀ (b b' : Build) (p0 pk : Part) (qs rs : List Part) (k : Nat)
        (bn : String),
      0 < k → qs.length = k - 1 → rs.length = k - 1 →
      (∀ p ∈ p0 :: (qs ++ pk :: rs),
        p.base_name = bn ∧ p.print_max_samples = k) →
      (dget b._parts bn).getD [] = [] →
      (b._first_part = true → b._parts = []) →
      addChain b (p0 :: (qs ++ pk :: rs)) = (b', none) →
      b'._print_time = b._print_time + p0.print_time + pk.print_time ∧
      b'._print_materials = mergeMaterials
        (mergeMaterials b._print_materials p0.print_materials)
        pk.print_materials) := by
  constructor
  · intro b p ic hk hj
    cases hr : b.add_part p ic with
    | mk b₁ o =>
      cases o with
      | none =>
        obtain ⟨-, -, -, -, -, -, -, -, hnocharge⟩ := add_part_success_state hr
        obtain ⟨ht, hm⟩ := hnocharge hj
        exact ⟨ht, hm, fun key => by simp⟩
      | some e =>
        obtain ⟨-, -, -, -, -, ht, hm, -⟩ := add_part_fail_state hr
        refine ⟨ht, hm, fun key hkey => ?_⟩
        simp only [Option.some.injEq] at hkey
        subst hkey
        exact hj (material_error_divisible hr)
  · intro b b' p0 pk qs rs k bn hk hq hr hall hempty hfl hchain
    obtain ⟨ht, hm, -, -⟩ := addChain_charges _ b b' hall hfl hchain
    have hcharges : groupCharges ((dget b._parts bn).getD []).length k
        (p0 :: (qs ++ pk :: rs)) = [p0, pk] := by
      rw [hempty]
      simp only [List.length_nil, groupCharges, Nat.zero_mod, if_true,
        ite_true]
      rw [groupCharges_append_no qs (pk :: rs) 1 ?_]
      · rw [hq]
        have h1k : 1 + (k - 1) = k := by omega
        rw [h1k]
        simp only [groupCharges, Nat.mod_self, ite_true]
        have hno2 : ∀ i < rs.length, (k + 1 + i) % k ≠ 0 := by
          intro i hi
          rw [hr] at hi
          have he : k + 1 + i = k + (1 + i) := by omega
          rw [he, Nat.add_mod_left, Nat.mod_eq_of_lt (by omega)]
          omega
        have hrs0 := groupCharges_append_no rs ([] : List Part) (k + 1) hno2
        rw [List.append_nil] at hrs0
        rw [hrs0]
        simp [groupCharges]
      · intro i hi
        rw [hq] at hi
        rw [Nat.mod_eq_of_lt (by omega)]
        omega
    rw [hcharges] at ht hm
    constructor
    · rw [ht]
      simp only [List.map_cons, List.map_nil, List.sum_cons, List.sum_nil]
      omega
    · rw [hm]
      rfl

/-- Parts sharing base name "Q" with `print_max_samples = 2`. -/
def wQ (i : Nat) : Part :=
  { wPartA with
    name := "Q-c" ++ toString i ++ "-B0-M0-S0"
    base_name := "Q"
    cnd := "c" ++ toString i
    print_time := 5
    print_materials := [("CFA", 7)]
    print_max_samples := 2 }

/-- A build holding one "Q" part (stored count 1, not divisible by 2). -/
def wBuildQ1 : Build := ((mkBuild "B-0").add_part (wQ 1)).1

/-- Witness for C5 at concrete inputs: `k = 2`, four parts, charged twice. -/
theorem c5_witness :
    ((wBuildQ1.add_part (wQ 2)).1._print_time = wBuildQ1._print_time ∧
     (wBuildQ1.add_part (wQ 2)).1._print_materials
       = wBuildQ1._print_materials ∧
     ∀ key, (wBuildQ1.add_part (wQ 2)).2
       ≠ some (AddErr.materialExceeded key)) ∧
    ((addChain (mkBuild "B-0") [wQ 1, wQ 2, wQ 3, wQ 4]).1._print_time
       = (mkBuild "B-0")._print_time + (wQ 1).print_time
         + (wQ 3).print_time ∧
     (addChain (mkBuild "B-0") [wQ 1, wQ 2, wQ 3, wQ 4]).1._print_materials
       = mergeMaterials (mergeMaterials (mkBuild "B-0")._print_materials
           (wQ 1).print_materials) (wQ 3).print_materials) := by
  constructor
  · exact c5_grouping_accounting.1 wBuildQ1 (wQ 2) false (by decide)
      (by decide)
  · have hchain : addChain (mkBuild "B-0") [wQ 1, wQ 2, wQ 3, wQ 4]
        = ((addChain (mkBuild "B-0") [wQ 1, wQ 2, wQ 3, wQ 4]).1, none) := by
      decide
    exact c5_grouping_accounting.2 (mkBuild "B-0") _ (wQ 1) (wQ 3) [wQ 2]
      [wQ 4] 2 "Q" (by decide) (by decide) (by decide) (by decide)
      (by decide) (by decide) hchain

/-! ### Capacity invariant -/

/-- Every accumulated material entry is within `max_material` (a material
that was never charged counts as usage 0 and is always within capacity). -/
def Build.underCap (b : Build) : Prop :=
  ∀ kv ∈ b._print_materials, kv.2 ≤ dgetD b.max_material kv.1 0

instance (b : Build) : Decidable b.underCap := by
  unfold Build.underCap
  infer_instance

/-- Charging a requirement dict that passed the per-key check keeps every
usage entry within capacity (requirement keys unique, as in a Python dict). -/
theorem mergeMaterials_underCap (mx : List (String × Nat)) :
    ∀ (req d : List (String × Nat)),
      (∀ kv ∈ d, kv.2 ≤ dgetD mx kv.1 0) →
      (∀ kv ∈ req, dgetD d kv.1 0 + kv.2 ≤ dgetD mx kv.1 0) →
      (req.map Prod.fst).Nodup →
      ∀ kv ∈ mergeMaterials d req, kv.2 ≤ dgetD mx kv.1 0 := by
  intro req
  induction req with
  | nil =>
    intro d hd _ _ kv hkv
    exact hd kv hkv
  | cons r rs ih =>
    intro d hd hreq hnodup kv hkv
    rw [show mergeMaterials d (r :: rs)
        = mergeMaterials (dset d r.1 (dgetD d r.1 0 + r.2)) rs from rfl] at hkv
    rw [List.map_cons, List.nodup_cons] at hnodup
    refine ih _ ?_ ?_ hnodup.2 kv hkv
    · intro kv' hkv'
      rcases mem_dset hkv' with h | ⟨h, -⟩
      · rw [h]
        exact hreq r (by simp)
      · exact hd kv' h
    · intro kv' hkv'
      have hne : kv'.1 ≠ r.1 := by
        intro hcontra
        exact hnodup.1 (hcontra ▸ List.mem_map.mpr ⟨kv', hkv', rfl⟩)
      rw [dgetD, dget_dset_ne _ hne, ← dgetD]
      exact hreq kv' (by simp [hkv'])

/-- Repeated non-forced additions where the caller keeps the build and
ignores failures (exactly how `assign_part` consumes `add_part`). -/
def addSeq (b : Build) (ps : List Part) : Build :=
  ps.foldl (fun b p => (b.add_part p).1) b

/-- The capacity invariant is preserved along any non-forced addition
sequence, given that a still-fresh build is empty and its first (forced)
part fits. -/
theorem underCap_addSeq :
    ∀ (ps : List Part) (b : Build),
      (∀ p ∈ ps, (p.print_materials.map Prod.fst).Nodup) →
      b.underCap →
      (b._first_part = true → b._parts = [] ∧ b._print_materials = [] ∧
        ∀ p ∈ ps.take 1, ∀ kv ∈ p.print_materials,
          kv.2 ≤ dgetD b.max_material kv.1 0) →
      (addSeq b ps).underCap := by
  intro ps
  induction ps with
  | nil =>
    intro b _ hcap _
    exact hcap
  | cons p rest ih =>
    intro b hnodup hcap hfresh
    rw [show addSeq b (p :: rest) = addSeq ((b.add_part p).1) rest from rfl]
    cases hr : b.add_part p with
    | mk b₁ o =>
      show (addSeq b₁ rest).underCap
      have hfp1 : b₁._first_part = false := by
        cases o with
        | none => exact (add_part_success_state hr).2.2.1
        | some e => exact (add_part_fail_state hr).2.2.2.2.1
      have hcap1 : b₁.underCap := by
        cases o with
        | some e =>
          obtain ⟨-, -, -, -, -, -, hmats, hmax, -⟩ := add_part_fail_state hr
          intro kv hkv
          rw [hmats] at hkv
          rw [hmax]
          exact hcap kv hkv
        | none =>
          obtain ⟨-, -, -, hmax, -, -, -, hcharge, hnocharge⟩ :=
            add_part_success_state hr
          by_cases hm : (groupOf b p).length % p.print_max_samples = 0
          · obtain ⟨-, hmats, hchk⟩ := hcharge hm
            cases hfpb : b._first_part with
            | false =>
              intro kv hkv
              rw [hmats] at hkv
              rw [hmax]
              exact mergeMaterials_underCap b.max_material p.print_materials
                b._print_materials hcap (hchk (by simp [hfpb]))
                (hnodup p (by simp)) kv hkv
            | true =>
              obtain ⟨-, hpm, hfit⟩ := hfresh hfpb
              intro kv hkv
              rw [hmats, hpm] at hkv
              rw [hmax]
              refine mergeMaterials_underCap b.max_material p.print_materials
                [] (by simp) ?_ (hnodup p (by simp)) kv hkv
              intro kv' hkv'
              have := hfit p (by simp) kv' hkv'
              simpa [dgetD, dget] using this
          · obtain ⟨-, hmats⟩ := hnocharge hm
            intro kv hkv
            rw [hmats] at hkv
            rw [hmax]
            exact hcap kv hkv
      exact ih b₁ (fun q hq => hnodup q (by simp [hq])) hcap1
        (fun hcontra => absurd hcontra (by simp [hfp1]))

/-- A part requiring more CFA (60 cc) than the default capacity (50 cc). -/
def wPartBig : Part :=
  { wPartA with
    name := "T-c0-B0-M0-S0"
    cnd := "c0"
    print_materials := [("CFA", 60)] }

/-- Claim C1 counterexample: the very first non-forced `add_part` on a fresh
Build is internally forced and bypasses the material check, so it succeeds
and leaves the accumulated CFA usage at 60 cc against a 50 cc capacity —
`print_materials[m] ≤ max_material[m]` is violated after the first call of a
non-forced sequence. -/
theorem c1_counterexample :
    ((mkBuild "B-0").add_part wPartBig).2 = none ∧
    dgetD ((mkBuild "B-0").add_part wPartBig).1._print_materials "CFA" 0
      = 60 ∧
    dgetD ((mkBuild "B-0").add_part wPartBig).1.max_material "CFA" 0 = 50 ∧
    ¬ ((mkBuild "B-0").add_part wPartBig).1.underCap := by
  decide

/-- Claim C1 (amended): for a freshly constructed Build and any sequence of
non-forced `add_part` calls (failures ignored and the build kept, exactly as
`assign_part` consumes them), the accumulated `print_materials[m]` never
exceeds `max_material[m]` at any point — provided the first part of the
sequence fits within `max_material` on its own (the internally forced first
addition bypasses the check), with parts' material dicts having unique keys
(always true of a Python dict). -/
theorem c1_capacity_invariant_amended
    (ps : List Part) (nm : String) (bt mc : Option Nat)
    (mx : List (String × Nat))
    (hnodup : ∀ p ∈ ps, (p.print_materials.map Prod.fst).Nodup)
    (hfit : ∀ p ∈ ps.take 1, ∀ kv ∈ p.print_materials,
      kv.2 ≤ dgetD mx kv.1 0) :
    ∀ n, (addSeq (mkBuild nm bt mc mx) (ps.take n)).underCap := by
  intro n
  apply underCap_addSeq
  · intro q hq
    exact hnodup q (List.take_subset n ps hq)
  · intro kv hkv
    simp [mkBuild] at hkv
  · intro _
    refine ⟨rfl, rfl, ?_⟩
    intro q hq kv hkv
    cases n with
    | zero => simp at hq
    | succ m =>
      apply hfit q ?_ kv hkv
      rw [List.take_take] at hq
      have : min 1 (m + 1) = 1 := by omega
      rw [this] at hq
      exact hq

/-- Witness for C1 (amended) at a concrete input: first part fits, later
over-capacity attempts fail and leave usage unchanged. -/
theorem c1_witness :
    (addSeq (mkBuild "B-0" none none [("CFA", 50), ("OFA", 800)])
      ([wPartA, wPartC, wPartC].take 3)).underCap :=
  c1_capacity_invariant_amended [wPartA, wPartC, wPartC] "B-0" none none
    [("CFA", 50), ("OFA", 800)] (by decide) (by decide) 3

/-! ### Stable descending sort: permutation and lexicographic order -/

theorem insertDesc_perm {α : Type} (f : α → Nat) (x : α) :
    ∀ l : List α, List.Perm (insertDesc f x l) (x :: l) := by
  intro l
  induction l with
  | nil => exact List.Perm.refl _
  | cons y ys ih =>
    unfold insertDesc
    split_ifs with h
    · exact (ih.cons y).trans (List.Perm.swap x y ys)
    · exact List.Perm.refl _

theorem sortDesc_perm {α : Type} (f : α → Nat) (l : List α) :
    List.Perm (sortDesc f l) l := by
  induction l with
  | nil => exact List.Perm.refl _
  | cons x xs ih =>
    show List.Perm (insertDesc f x (sortDesc f xs)) (x :: xs)
    exact (insertDesc_perm f x (sortDesc f xs)).trans (ih.cons x)

theorem insertDesc_pairwise {α : Type} (f : α → Nat) (P : α → α → Prop)
    (x : α) :
    ∀ l : List α,
      l.Pairwise (fun a b => f b < f a ∨ (f a = f b ∧ P a b)) →
      (∀ y ∈ l, P x y) →
      (insertDesc f x l).Pairwise
        (fun a b => f b < f a ∨ (f a = f b ∧ P a b)) := by
  intro l
  induction l with
  | nil =>
    intro _ _
    simp [insertDesc]
  | cons y ys ih =>
    intro hpw hx
    rw [List.pairwise_cons] at hpw
    obtain ⟨hy, hys⟩ := hpw
    unfold insertDesc
    split_ifs with h
    · rw [List.pairwise_cons]
      refine ⟨?_, ih hys (fun z hz => hx z (by simp [hz]))⟩
      intro z hz
      rcases List.mem_cons.mp ((insertDesc_perm f x ys).mem_iff.mp hz)
        with h' | h'
      · exact Or.inl (h' ▸ h)
      · exact hy z h'
    · rw [List.pairwise_cons]
      refine ⟨?_, List.pairwise_cons.mpr ⟨hy, hys⟩⟩
      intro z hz
      rcases List.mem_cons.mp hz with h' | h'
      · subst h'
        rcases Nat.lt_or_ge (f z) (f x) with hlt | hge
        · exact Or.inl hlt
        · exact Or.inr ⟨by omega, hx z (by simp)⟩
      · rcases hy z h' with hlt | ⟨heq, -⟩
        · rcases Nat.lt_or_ge (f z) (f x) with hlt2 | hge2
          · exact Or.inl hlt2
          · have : f y ≤ f x := Nat.le_of_not_lt h
            omega
        · rcases Nat.lt_or_ge (f z) (f x) with hlt2 | hge2
          · exact Or.inl hlt2
          · exact Or.inr ⟨by omega, hx z (by simp [h'])⟩

theorem sortDesc_pairwise {α : Type} (f : α → Nat) (P : α → α → Prop) :
    ∀ l : List α, l.Pairwise P →
      (sortDesc f l).Pairwise
        (fun a b => f b < f a ∨ (f a = f b ∧ P a b)) := by
  intro l
  induction l with
  | nil =>
    intro _
    simp [sortDesc]
  | cons x xs ih =>
    intro hpw
    rw [List.pairwise_cons] at hpw
    show (insertDesc f x (sortDesc f xs)).Pairwise _
    refine insertDesc_pairwise f P x _ (ih hpw.2) ?_
    intro y hy
    exact hpw.1 y ((sortDesc_perm f xs).mem_iff.mp hy)

/-- Descending lexicographic comparison of parts by required quantity over a
key list, first key most significant. -/
def lexGE (keys : List String) (a b : Part) : Prop :=
  match keys with
  | [] => True
  | k :: ks =>
    dgetD b.print_materials k 0 < dgetD a.print_materials k 0
      ∨ (dgetD a.print_materials k 0 = dgetD b.print_materials k 0
          ∧ lexGE ks a b)

theorem sort_parts_perm : ∀ (keys : List String) (ps : List Part),
    List.Perm (sort_parts keys ps) ps := by
  intro keys
  induction keys with
  | nil =>
    intro ps
    exact List.Perm.refl _
  | cons k ks ih =>
    intro ps
    show List.Perm
      (sort_parts ks (sortDesc (fun q => dgetD q.print_materials k 0) ps)) ps
    exact (ih _).trans (sortDesc_perm _ ps)

theorem sort_parts_pairwise_aux :
    ∀ (keys : List String) (ps : List Part) (rev : List String),
      ps.Pairwise (lexGE rev) →
      (sort_parts keys ps).Pairwise (lexGE (keys.reverse ++ rev)) := by
  intro keys
  induction keys with
  | nil =>
    intro ps rev h
    simpa [sort_parts] using h
  | cons k ks ih =>
    intro ps rev h
    show (sort_parts ks
      (sortDesc (fun q => dgetD q.print_materials k 0) ps)).Pairwise _
    have h1 := sortDesc_pairwise (fun q => dgetD q.print_materials k 0)
      (lexGE rev) ps h
    have h1' : (sortDesc (fun q => dgetD q.print_materials k 0) ps).Pairwise
        (lexGE (k :: rev)) := h1
    have h2 := ih _ (k :: rev) h1'
    have hkeys : ks.reverse ++ (k :: rev) = (k :: ks).reverse ++ rev := by
      simp
    rw [hkeys] at h2
    exact h2

theorem pairwise_true (ps : List Part) : ps.Pairwise (lexGE []) := by
  induction ps with
  | nil => exact List.Pairwise.nil
  | cons p rest ih =>
    exact List.pairwise_cons.mpr ⟨fun _ _ => trivial, ih⟩

/-- Claim C6: `assign_parts` reorders the part list by one stable descending
sort per material key of the first Build's `max_material`, keys ranked by
descending capacity; consequently the output is a permutation of the input
ordered lexicographically with the *last*-applied key — the
smallest-capacity material — as the primary descending criterion and
earlier (larger-capacity) keys as tie-breakers
(`(rank_keys mm).reverse` puts the smallest-capacity key first). -/
theorem c6_scarcity_sort :
    (∀ (mm : List (String × Nat)) (ps : List Part),
      List.Perm (sort_parts (rank_keys mm) ps) ps) ∧
    (∀ (mm : List (String × Nat)) (ps : List Part),
      (sort_parts (rank_keys mm) ps).Pairwise
        (lexGE (rank_keys mm).reverse)) ∧
    (∀ mm : List (String × Nat),
      (sortDesc (fun (kv : String × Nat) => kv.2) mm).Pairwise
        (fun a b => b.2 ≤ a.2)) ∧
    (∀ (c : BuildCollection) (b0 : Build) (rest : List Build)
        (ps : List Part) (pick : Nat → Nat → Nat),
      c.builds = b0 :: rest →
      ((rank_keys b0.max_material).all (fun k =>
        ps.all (fun q => (dget q.print_materials k).isSome))) = true →
      c.assign_parts ps pick
        = some (assignList c (sort_parts (rank_keys b0.max_material) ps)
            pick 0)) := by
  refine ⟨fun mm ps => sort_parts_perm _ ps, ?_, ?_, ?_⟩
  · intro mm ps
    have h := sort_parts_pairwise_aux (rank_keys mm) ps [] (pairwise_true ps)
    simpa using h
  · intro mm
    have h := sortDesc_pairwise (fun (kv : String × Nat) => kv.2)
      (fun _ _ => True) mm ?_
    · refine h.imp ?_
      intro a b hab
      rcases hab with h1 | ⟨h1, -⟩
      · omega
      · omega
    · induction mm with
      | nil => exact List.Pairwise.nil
      | cons x xs ih => exact List.pairwise_cons.mpr ⟨fun _ _ => trivial, ih⟩
  · intro c b0 rest ps pick hc hall
    rw [BuildCollection.assign_parts, hc]
    simp only [hall, if_true]

/-- A collection with a single default build. -/
def wColl : BuildCollection :=
  { builds := [mkBuildKw "B-0" {}], build_kwargs := {}, num_builds := 1 }

/-- A part listing both default materials. -/
def wFull (i : Nat) : Part :=
  { wPartA with
    name := "F-c" ++ toString i ++ "-B0-M0-S0"
    base_name := "F"
    cnd := "c" ++ toString i
    print_materials := [("CFA", i), ("OFA", 2 * i)] }

/-- Witness for C6 at a concrete input. -/
theorem c6_witness :
    wColl.assign_parts [wFull 1, wFull 2] (fun _ _ => 0)
      = some (assignList wColl
          (sort_parts (rank_keys (mkBuildKw "B-0" {}).max_material)
            [wFull 1, wFull 2]) (fun _ _ => 0) 0) :=
  c6_scarcity_sort.2.2.2 wColl (mkBuildKw "B-0" {}) [] [wFull 1, wFull 2]
    (fun _ _ => 0) (by decide) (by decide)

/-- A collection holding the build `wBuildA`. -/
def wCollA : BuildCollection :=
  { builds := [wBuildA], build_kwargs := {}, num_builds := 1 }

/-- Witness for C7 at a concrete input: the result ignores an unsatisfiable
material demand when a base name is given. -/
theorem c7_witness :
    (wCollA.filter_builds (some 0) (some 0) [("CFA", 999)] (some "T")
        = wCollA.filter_builds (some 0) (some 0) [] (some "T")) ∧
    (basePass "T" wBuildA = true
        ↔ ∃ q ∈ wBuildA.parts, q.base_name = "T") := by
  refine ⟨(c7_base_name_ignores_materials wCollA 0 (some 0) [("CFA", 999)]
    "T").1, ?_⟩
  exact (c7_base_name_ignores_materials wCollA 0 (some 0) [("CFA", 999)]
    "T").2.2 wBuildA (by decide)

/-! ### The assignment loop: coverage and termination -/

theorem dset_cons_ne {α : Type} {g : String × α} {S : List (String × α)}
    {bn : String} (hne : g.1 ≠ bn) (hs : (dget S bn).isSome) (v : α) :
    dset (g :: S) bn v = g :: dset S bn v := by
  unfold dset
  have hany : S.any (fun kv => decide (kv.1 = bn)) = true :=
    any_of_dget_isSome hs
  rw [if_pos (by simp [hany]), if_pos hany]
  simp [hne]

theorem flatten_dset_perm :
    ∀ (S : List (String × List (String × Part))) (bn cnd : String)
      (p : Part) (G : List (String × Part)),
      (S.map Prod.fst).Nodup → dget S bn = some G →
      List.Perm
        ((dset S bn (G ++ [(cnd, p)])).map
          (fun g => g.2.map (fun e => e.2))).flatten
        (p :: (S.map (fun g => g.2.map (fun e => e.2))).flatten) := by
  intro S
  induction S with
  | nil =>
    intro bn cnd p G _ hG
    exact absurd hG (by simp [dget])
  | cons g S' ih =>
    intro bn cnd p G hnodup hG
    rw [List.map_cons, List.nodup_cons] at hnodup
    by_cases hk : g.1 = bn
    · have hGg : G = g.2 := by
        unfold dget at hG
        rw [List.find?_cons] at hG
        simp [hk] at hG
        exact hG.symm
      have hrest : ∀ kv ∈ S', kv.1 ≠ bn := by
        intro kv hkv hcontra
        exact hnodup.1 (hk ▸ hcontra ▸ List.mem_map.mpr ⟨kv, hkv, rfl⟩)
      have hdset : dset (g :: S') bn (G ++ [(cnd, p)])
          = (bn, G ++ [(cnd, p)]) :: S' := by
        unfold dset
        rw [if_pos (by simp [hk])]
        rw [List.map_cons, if_pos hk]
        congr 1
        rw [show S'.map (fun kv =>
            if kv.1 = bn then (bn, G ++ [(cnd, p)]) else kv) = S'.map id by
          apply List.map_congr_left
          intro kv hkv
          simp [hrest kv hkv]]
        exact List.map_id S'
      rw [hdset]
      simp only [List.map_cons, List.flatten_cons, List.map_append,
        List.map_cons, List.map_nil]
      rw [hGg]
      have : (g.2.map (fun e => e.2) ++ [p])
          ++ (S'.map (fun g => g.2.map (fun e => e.2))).flatten
          = g.2.map (fun e => e.2)
            ++ (p :: (S'.map (fun g => g.2.map (fun e => e.2))).flatten) := by
        rw [List.append_assoc]
        rfl
      rw [this]
      exact List.perm_middle
    · have hG' : dget S' bn = some G := by
        unfold dget at hG ⊢
        rw [List.find?_cons] at hG
        simp [hk] at hG
        obtain ⟨a, ha⟩ := hG
        rw [ha]
        rfl
      have hdset := dset_cons_ne hk (by rw [hG']; rfl) (G ++ [(cnd, p)])
      rw [hdset]
      simp only [List.map_cons, List.flatten_cons]
      refine ((ih bn cnd p G hnodup.2 hG').append_left
        (g.2.map (fun e => e.2))).trans ?_
      exact List.perm_middle

/-- A successful non-forced addition stores exactly the new part: the
flattened part list is the old one plus `p` (in some position). -/
theorem add_part_success_parts {b b' : Build} {p : Part}
    (hw : b.Inv) (h : b.add_part p = (b', none)) :
    List.Perm b'.parts (p :: b.parts) := by
  obtain ⟨-, -, -, -, -, hpp, hdupnone, -, -⟩ := add_part_success_state h
  have hcnd : dget (groupOf b p) p.cnd = none := by
    cases hfp : b._first_part with
    | false => exact hdupnone (by simp [hfp])
    | true =>
      have he := hw.2.2.2 hfp
      unfold groupOf
      rw [he]
      rfl
  have hset : dset (groupOf b p) p.cnd p = groupOf b p ++ [(p.cnd, p)] :=
    dset_of_dget_none hcnd p
  have hkeys : ((seedOf b p).map Prod.fst).Nodup := (Inv_seedOf p hw).1
  have hflat : ((seedOf b p).map (fun g => g.2.map (fun e => e.2))).flatten
      = (b._parts.map (fun g => g.2.map (fun e => e.2))).flatten := by
    unfold seedOf
    split_ifs
    · rfl
    · simp
  unfold Build.parts
  rw [hpp, hset]
  refine (flatten_dset_perm (seedOf b p) p.base_name p.cnd p (groupOf b p)
    hkeys (dget_seedOf b p)).trans ?_
  rw [hflat]

/-- Freshly constructed builds satisfy the dict invariant. -/
theorem Inv_mkBuild (nm : String) (bt mc : Option Nat)
    (mx : List (String × Nat)) : (mkBuild nm bt mc mx).Inv := by
  refine ⟨by simp [mkBuild], by simp [mkBuild], by simp [mkBuild],
    fun _ => rfl⟩

theorem Inv_mkBuildKw (nm : String) (kw : BuildKwargs) :
    (mkBuildKw nm kw).Inv := Inv_mkBuild nm kw.batch kw.machine kw.max_material

theorem allParts_set_perm (p : Part) :
    ∀ (builds : List Build) (j : Nat) (b' : Build),
      j < builds.length →
      List.Perm b'.parts (p :: (builds.getD j default).parts) →
      List.Perm ((builds.set j b').map Build.parts).flatten
        (p :: (builds.map Build.parts).flatten) := by
  intro builds
  induction builds with
  | nil =>
    intro j b' hj _
    simp at hj
  | cons b0 rest ih =>
    intro j b' hj hperm
    cases j with
    | zero =>
      simp only [List.set_cons_zero, List.map_cons, List.flatten_cons]
      have hb0 : (b0 :: rest).getD 0 default = b0 := rfl
      rw [hb0] at hperm
      refine (hperm.append_right _).trans ?_
      rw [List.cons_append]
    | succ n =>
      simp only [List.set_cons_succ, List.map_cons, List.flatten_cons]
      have hrest : (b0 :: rest).getD (n + 1) default
          = rest.getD n default := rfl
      rw [hrest] at hperm
      refine ((ih n b' (by simpa using hj) hperm).append_left
        b0.parts).trans ?_
      exact List.perm_middle

theorem allParts_set_eq :
    ∀ (builds : List Build) (j : Nat) (b' : Build),
      b'.parts = (builds.getD j default).parts →
      ((builds.set j b').map Build.parts).flatten
        = (builds.map Build.parts).flatten := by
  intro builds
  induction builds with
  | nil =>
    intro j b' _
    simp
  | cons b0 rest ih =>
    intro j b' heq
    cases j with
    | zero =>
      simp only [List.set_cons_zero, List.map_cons, List.flatten_cons]
      have hb0 : (b0 :: rest).getD 0 default = b0 := rfl
      rw [hb0] at heq
      rw [heq]
    | succ n =>
      simp only [List.set_cons_succ, List.map_cons, List.flatten_cons]
      have hrest : (b0 :: rest).getD (n + 1) default
          = rest.getD n default := rfl
      rw [hrest] at heq
      rw [ih n b' heq]

theorem assignLoop_spec
    (c : BuildCollection) (p : Part) (pick : Nat → Nat)
    (elig : List Nat) (lz : Option (List Nat)) (step : Nat) :
    (∀ i ∈ elig, i < c.builds.length) →
    (∀ l, lz = some l → ∀ i ∈ l, i < c.builds.length) →
    (∀ b ∈ c.builds, b.Inv) →
    List.Perm (assignLoop c p pick elig lz step).allParts
        (p :: c.allParts) ∧
    (∀ b ∈ (assignLoop c p pick elig lz step).builds, b.Inv) := by
  induction c, p, pick, elig, lz, step using assignLoop.induct with
  | case1 c p pick step l ih =>
    intro he hl hw
    rw [assignLoop]
    exact ih (hl l rfl) (fun l' hl' => by cases hl') hw
  | case2 c p pick step =>
    intro he hl hw
    rw [assignLoop]
    set nb := mkBuildKw ("B-" ++ toString c.num_builds) c.build_kwargs
      with hnb
    have hfresh : nb.Inv := Inv_mkBuildKw _ _
    have hforced : (nb.add_part p).2 = none :=
      add_part_forced_ok nb p (by simp [hnb, mkBuildKw, mkBuild])
    cases hr : nb.add_part p with
    | mk nb' o =>
      rw [hr] at hforced
      simp only at hforced
      subst hforced
      have hperm : List.Perm nb'.parts [p] := by
        have h1 := add_part_success_parts hfresh hr
        have h2 : nb.parts = [] := rfl
        rw [h2] at h1
        exact h1
      constructor
      · show List.Perm ((c.builds ++ [nb']).map Build.parts).flatten
          (p :: c.allParts)
        simp only [List.map_append, List.flatten_append, List.map_cons,
          List.map_nil, List.flatten_cons, List.flatten_nil,
          List.append_nil]
        refine (hperm.append_left (c.builds.map Build.parts).flatten).trans ?_
        have hmid : List.Perm
            ((c.builds.map Build.parts).flatten ++ [p])
            (p :: ((c.builds.map Build.parts).flatten ++ [])) :=
          List.perm_middle
        rw [List.append_nil] at hmid
        exact hmid
      · intro b hb
        have hb' : b ∈ c.builds ++ [nb'] := hb
        rcases List.mem_append.mp hb' with h | h
        · exact hw b h
        · simp only [List.mem_singleton] at h
          subst h
          have hInv := Inv_add_part p false hfresh
          rw [show nb.add_part p false = nb.add_part p from rfl, hr] at hInv
          exact hInv
  | case3 c p pick step i rest lz es j b b' heq =>
    intro he hl hw
    have heq' : (c.builds.getD
        ((i :: rest).getD (pick step % (i :: rest).length) 0)
        default).add_part p = (b', none) := heq
    simp only [assignLoop, heq']
    have hlt : pick step % (i :: rest).length < (i :: rest).length :=
      Nat.mod_lt _ (by simp)
    have hjmem : (i :: rest).getD (pick step % (i :: rest).length) 0
        ∈ (i :: rest) := by
      rw [List.getD_eq_getElem _ _ hlt]
      exact List.getElem_mem _
    have hj : (i :: rest).getD (pick step % (i :: rest).length) 0
        < c.builds.length := he _ hjmem
    have hbmem : c.builds.getD
        ((i :: rest).getD (pick step % (i :: rest).length) 0) default
        ∈ c.builds := by
      rw [List.getD_eq_getElem _ _ hj]
      exact List.getElem_mem _
    have hperm := add_part_success_parts (hw _ hbmem) heq'
    constructor
    · exact allParts_set_perm p c.builds _ b' hj hperm
    · intro b hb
      rcases List.mem_or_eq_of_mem_set hb with h | h
      · exact hw b h
      · subst h
        have hInv := Inv_add_part p false (hw _ hbmem)
        rw [show (c.builds.getD _ default).add_part p false
          = (c.builds.getD _ default).add_part p from rfl, heq'] at hInv
        exact hInv
  | case4 c p pick step i rest lz es j b b' e heq ih =>
    intro he hl hw
    have heq' : (c.builds.getD
        ((i :: rest).getD (pick step % (i :: rest).length) 0)
        default).add_part p = (b', some e) := heq
    simp only [assignLoop, heq']
    have hlt : pick step % (i :: rest).length < (i :: rest).length :=
      Nat.mod_lt _ (by simp)
    have hjmem : (i :: rest).getD (pick step % (i :: rest).length) 0
        ∈ (i :: rest) := by
      rw [List.getD_eq_getElem _ _ hlt]
      exact List.getElem_mem _
    have hj : (i :: rest).getD (pick step % (i :: rest).length) 0
        < c.builds.length := he _ hjmem
    have hbmem : c.builds.getD
        ((i :: rest).getD (pick step % (i :: rest).length) 0) default
        ∈ c.builds := by
      rw [List.getD_eq_getElem _ _ hj]
      exact List.getElem_mem _
    obtain ⟨-, -, -, -, -, -, -, -, -, hpe, -⟩ := add_part_fail_state heq'
    have hflat := allParts_set_eq c.builds _ b' hpe
    obtain ⟨hperm', hw'⟩ := ih
      (fun i' hi' => by
        rw [List.length_set]
        exact he i' (List.mem_of_mem_erase hi'))
      (fun l' hl' i' hi' => by
        rw [List.length_set]
        exact hl l' hl' i' hi')
      (fun b hb => by
        rcases List.mem_or_eq_of_mem_set hb with h | h
        · exact hw b h
        · subst h
          have hInv := Inv_add_part p false (hw _ hbmem)
          rw [show (c.builds.getD _ default).add_part p false
            = (c.builds.getD _ default).add_part p from rfl, heq'] at hInv
          exact hInv)
    refine ⟨hperm'.trans ?_, hw'⟩
    show List.Perm
      (p :: ((c.builds.set _ b').map Build.parts).flatten)
      (p :: c.allParts)
    rw [show ((c.builds.set _ b').map Build.parts).flatten
      = (c.builds.map Build.parts).flatten from hflat]
    exact List.Perm.refl _

theorem eligIdx_lt (builds : List Build) (pred : Build → Bool) :
    ∀ i ∈ eligIdx builds pred, i < builds.length := by
  intro i hi
  unfold eligIdx at hi
  exact List.mem_range.mp (List.mem_filter.mp hi).1

/-- `assign_part` always terminates, never surfaces an `add_part` failure,
stores exactly the given part in exactly one build, and preserves the dict
invariant of every build. -/
theorem assign_part_spec (c : BuildCollection) (p : Part) (pick : Nat → Nat)
    (hw : ∀ b ∈ c.builds, b.Inv) :
    List.Perm (c.assign_part p pick).allParts (p :: c.allParts) ∧
    (∀ b ∈ (c.assign_part p pick).builds, b.Inv) := by
  refine assignLoop_spec c p pick _ _ 0 (eligIdx_lt _ _) ?_ hw
  intro l hl
  injection hl with hl
  rw [← hl]
  exact eligIdx_lt _ _

theorem assignList_spec :
    ∀ (ps : List Part) (c : BuildCollection) (pick : Nat → Nat → Nat)
      (j : Nat),
      (∀ b ∈ c.builds, b.Inv) →
      List.Perm (assignList c ps pick j).allParts (ps ++ c.allParts) ∧
      (∀ b ∈ (assignList c ps pick j).builds, b.Inv) := by
  intro ps
  induction ps with
  | nil =>
    intro c pick j hw
    exact ⟨List.Perm.refl _, hw⟩
  | cons p rest ih =>
    intro c pick j hw
    obtain ⟨hperm1, hw1⟩ := assign_part_spec c p (pick j) hw
    obtain ⟨hperm2, hw2⟩ := ih (c.assign_part p (pick j)) pick (j + 1) hw1
    refine ⟨?_, hw2⟩
    show List.Perm (assignList (c.assign_part p (pick j)) rest pick
      (j + 1)).allParts _
    refine hperm2.trans ?_
    refine ((hperm1.append_left rest).trans ?_)
    exact List.perm_middle

theorem countP_of_count_flatten_one :
    ∀ (L : List (List Part)) (p : Part),
      L.flatten.count p = 1 →
      L.countP (fun l => decide (p ∈ l)) = 1 := by
  intro L
  induction L with
  | nil =>
    intro p h
    simp at h
  | cons l L ih =>
    intro p h
    rw [List.flatten_cons, List.count_append] at h
    rw [List.countP_cons]
    rcases Nat.eq_zero_or_pos (l.count p) with h0 | hpos
    · have hmem : p ∉ l := List.count_eq_zero.mp h0
      rw [h0] at h
      simp only [Nat.zero_add] at h
      simp [hmem, ih p h]
    · have hmem : p ∈ l := List.count_pos_iff.mp hpos
      have hl1 : L.flatten.count p = 0 := by omega
      have hcz : L.countP (fun l => decide (p ∈ l)) = 0 := by
        rw [List.countP_eq_zero]
        intro l' hl'
        simp only [decide_eq_true_eq]
        intro hmem'
        have : 0 < L.flatten.count p := by
          rw [List.count_pos_iff]
          rw [List.mem_flatten]
          exact ⟨l', hl', hmem'⟩
        omega
      simp [hcz, hmem]

/-- Claim C3: on a non-empty collection of well-formed builds, for any finite
list of fully populated parts (positive `print_max_samples`, all ranked
material keys present — the Python sort would raise `KeyError` otherwise and
`ZeroDivisionError` on a zero grouping factor) and any random stream,
`assign_parts` terminates with a result (no `add_part` failure is surfaced:
the error type does not even occur in the result); afterwards the stored
parts across the collection are exactly the previous ones plus the input
list, and each fresh input part is stored in exactly one Build. -/
theorem c3_assign_parts_terminates_covers
    (c : BuildCollection) (ps : List Part) (pick : Nat → Nat → Nat)
    (b0 : Build) (rest : List Build)
    (hc : c.builds = b0 :: rest)
    (hall : ((rank_keys b0.max_material).all (fun k =>
      ps.all (fun q => (dget q.print_materials k).isSome))) = true)
    (_hpm : ∀ p ∈ ps, 0 < p.print_max_samples)
    (hw : ∀ b ∈ c.builds, b.Inv) :
    ∃ c', c.assign_parts ps pick = some c' ∧
      List.Perm c'.allParts (ps ++ c.allParts) ∧
      (∀ p : Part, ps.count p = 1 → p ∉ c.allParts →
        c'.builds.countP (fun b => decide (p ∈ b.parts)) = 1) := by
  have hres : c.assign_parts ps pick
      = some (assignList c (sort_parts (rank_keys b0.max_material) ps)
          pick 0) := by
    rw [BuildCollection.assign_parts, hc]
    simp only [hall, if_true]
  obtain ⟨hperm, -⟩ := assignList_spec
    (sort_parts (rank_keys b0.max_material) ps) c pick 0 hw
  refine ⟨_, hres, ?_, ?_⟩
  · refine hperm.trans ?_
    exact (sort_parts_perm _ ps).append_right _
  · intro p hcount hnot
    have hc1 : (assignList c (sort_parts (rank_keys b0.max_material) ps)
        pick 0).allParts.count p = 1 := by
      rw [hperm.count_eq, List.count_append]
      have h1 : (sort_parts (rank_keys b0.max_material) ps).count p = 1 := by
        rw [(sort_parts_perm _ ps).count_eq]
        exact hcount
      have h2 : c.allParts.count p = 0 := List.count_eq_zero.mpr hnot
      omega
    have hcp := countP_of_count_flatten_one
      ((assignList c (sort_parts (rank_keys b0.max_material) ps)
        pick 0).builds.map Build.parts) p hc1
    rw [List.countP_map] at hcp
    simpa [Function.comp] using hcp

/-- Witness for C3 at a concrete input. -/
theorem c3_witness :
    ∃ c', wColl.assign_parts [wFull 1, wFull 2] (fun _ _ => 0) = some c' ∧
      List.Perm c'.allParts ([wFull 1, wFull 2] ++ wColl.allParts) ∧
      (∀ p : Part, [wFull 1, wFull 2].count p = 1 → p ∉ wColl.allParts →
        c'.builds.countP (fun b => decide (p ∈ b.parts)) = 1) :=
  c3_assign_parts_terminates_covers wColl [wFull 1, wFull 2] (fun _ _ => 0)
    (mkBuildKw "B-0" {}) [] rfl (by decide) (by decide) (by decide)
